import Mathlib

/-!
Shallow embedding of the header-list component of remix-run/web-std-io
(file packages/fetch/src/headers.js) together with proofs about the
claims of its design specification.

Modelling conventions:
* JavaScript strings are modelled by Lean strings (in this toolchain a
  String is a packed list of characters); character classes of the
  regular expressions are expressed through the code point (Char.toNat).
* The private field #pairs (a JS Map from string to string array) is an
  insertion-ordered association list.  Map.get / Map.set / Map.delete /
  Map.has are modelled by structural recursion over that list, matching
  the JS Map semantics (set replaces in place, otherwise appends at the
  end; delete removes the unique binding).
* A JS method that can throw is modelled by returning the thrown error
  (as an inductive) together with the state of the object after the
  call; in headers.js every throw happens before any mutation, so the
  returned state on a throw is the input state.
* String.prototype.toLowerCase is modelled on the Latin-1 range
  (code points up to 0xFF), which covers every reachable call site:
  header names are validated HTTP tokens (ASCII) before being lowered,
  and header values are validated to tab / 0x20-0x7E / 0x80-0xFF.
-/

namespace WebFetch

/-- Decidable equality of results, used to evaluate the model on
concrete inputs. -/
instance {ε α : Type} [DecidableEq ε] [DecidableEq α] : DecidableEq (Except ε α) := fun a b =>
  match a, b with
  | .ok x, .ok y => if h : x = y then .isTrue (by rw [h]) else .isFalse (by simp [h])
  | .error x, .error y => if h : x = y then .isTrue (by rw [h]) else .isFalse (by simp [h])
  | .ok _, .error _ => .isFalse (by simp)
  | .error _, .ok _ => .isFalse (by simp)

/-- Code points accepted by the fallback name validator of headers.js,
the regex character class [\^`\-\w!#$%&'*+.|~] : word characters
(digits 48-57, upper 65-90, lower 97-122, underscore 95), caret 94,
backquote 96, hyphen 45, and ! # $ % & ' * + . | ~
(33 35 36 37 38 39 42 43 46 124 126). -/
def tokenProp (n : Nat) : Prop :=
  (48 ≤ n ∧ n ≤ 57) ∨ (65 ≤ n ∧ n ≤ 90) ∨ (97 ≤ n ∧ n ≤ 122) ∨
  n = 95 ∨ n = 94 ∨ n = 96 ∨ n = 45 ∨
  n = 33 ∨ n = 35 ∨ n = 36 ∨ n = 37 ∨ n = 38 ∨ n = 39 ∨
  n = 42 ∨ n = 43 ∨ n = 46 ∨ n = 124 ∨ n = 126

instance tokenProp.decidable : DecidablePred tokenProp := by
  intro n
  unfold tokenProp
  infer_instance

/-- A character is legal in a header name. -/
def isTokenChar (c : Char) : Bool :=
  decide (tokenProp c.toNat)

/-- The fallback validateHeaderName of headers.js: the name matches
the anchored regex, i.e. it is non-empty and every character is a
token character. -/
def checkName (s : String) : Bool :=
  !s.data.isEmpty && s.data.all isTokenChar

/-- Code points accepted by the fallback value validator of headers.js:
the complement of [^\t -~\u0080-ÿ], i.e. tab,
printable ASCII, and the Latin-1 supplement. -/
def valueProp (n : Nat) : Prop :=
  n = 9 ∨ (32 ≤ n ∧ n ≤ 126) ∨ (128 ≤ n ∧ n ≤ 255)

instance valueProp.decidable : DecidablePred valueProp := by
  intro n
  unfold valueProp
  infer_instance

/-- A character is legal in a header value. -/
def isValueChar (c : Char) : Bool :=
  decide (valueProp c.toNat)

/-- The fallback validateHeaderValue of headers.js: no character of the
value is outside the permitted set. -/
def checkValue (s : String) : Bool :=
  s.data.all isValueChar

/-- Code points that JS String.prototype.toLowerCase maps 32 places up:
ASCII A-Z (65-90) and the Latin-1 capitals À-Þ except × (192-214 and
216-222).  This covers every string reachable at a toLowerCase call
site of headers.js (validated names are ASCII tokens, validated values
are Latin-1). -/
def upperProp (n : Nat) : Prop :=
  (65 ≤ n ∧ n ≤ 90) ∨ (192 ≤ n ∧ n ≤ 214) ∨ (216 ≤ n ∧ n ≤ 222)

instance upperProp.decidable : DecidablePred upperProp := by
  intro n
  unfold upperProp
  infer_instance

/-- One character of JS toLowerCase (on the Latin-1 domain). -/
def lowerChar (c : Char) : Char :=
  if upperProp c.toNat then Char.ofNat (c.toNat + 32) else c

/-- Model of name.toLowerCase() / value.toLowerCase() in headers.js. -/
def lowerStr (s : String) : String :=
  ⟨s.data.map lowerChar⟩

/-- The errors headers.js can throw.  The first two are the TypeErrors
of the name/value validators (codes ERR_INVALID_HTTP_TOKEN and
ERR_INVALID_CHAR), the third is the TypeError raised by the
constructor when a header pair is not a two-element tuple. -/
inductive HeaderError where
  | invalidHeaderName
  | invalidHeaderValue
  | invalidPair
deriving DecidableEq, Repr

/-- The backing store: the JS Map from lower-cased names to arrays of
values, as an insertion-ordered association list. -/
abbrev Store := List (String × List String)

/-- JS Map.prototype.get. -/
def mapGet : Store → String → Option (List String)
  | [], _ => none
  | p :: rest, k => if p.1 = k then some p.2 else mapGet rest k

/-- JS Map.prototype.set: replace the binding in place when the key is
present, otherwise add a binding at the end. -/
def mapSet : Store → String → List String → Store
  | [], k, vs => [(k, vs)]
  | p :: rest, k, vs => if p.1 = k then (k, vs) :: rest else p :: mapSet rest k vs

/-- JS Map.prototype.delete (the keys of the store are unique, so
removing the first binding removes the binding). -/
def mapDelete : Store → String → Store
  | [], _ => []
  | p :: rest, k => if p.1 = k then rest else p :: mapDelete rest k

/-- JS Map.prototype.has. -/
def mapHas (m : Store) (k : String) : Bool :=
  (mapGet m k).isSome

/-- The Headers class: its only state is the private #pairs map. -/
structure Headers where
  pairs : Store
deriving DecidableEq, Repr

/-- A freshly constructed Headers object (constructor argument absent). -/
def Headers.empty : Headers :=
  ⟨[]⟩

/-- Headers.prototype.append.  Source order: validate the name (throw),
validate the value (throw), lower-case the name, then either extend the
existing array or create a one-element array.  The returned state on a
throw is the unchanged input state, because both throws precede the
mutation. -/
def Headers.appendRun (h : Headers) (name value : String) : Option HeaderError × Headers :=
  if checkName name then
    if checkValue value then
      let n := lowerStr name
      match mapGet h.pairs n with
      | some values => (none, ⟨mapSet h.pairs n (values ++ [value])⟩)
      | none => (none, ⟨mapSet h.pairs n [value]⟩)
    else (some .invalidHeaderValue, h)
  else (some .invalidHeaderName, h)

/-- Headers.prototype.set: validate name and value, lower-case the
name, replace the whole array by the one-element array of the new
value. -/
def Headers.setRun (h : Headers) (name value : String) : Option HeaderError × Headers :=
  if checkName name then
    if checkValue value then
      (none, ⟨mapSet h.pairs (lowerStr name) [value]⟩)
    else (some .invalidHeaderValue, h)
  else (some .invalidHeaderName, h)

/-- Headers.prototype.delete: validate the name, then remove the entry
for the name as given.  The source does not lower-case the name here. -/
def Headers.deleteRun (h : Headers) (name : String) : Option HeaderError × Headers :=
  if checkName name then (none, ⟨mapDelete h.pairs name⟩)
  else (some .invalidHeaderName, h)

/-- Headers.prototype.has: validate the name, then look the name up as
given.  The source does not lower-case the name here. -/
def Headers.hasRun (h : Headers) (name : String) : Except HeaderError Bool :=
  if checkName name then .ok (mapHas h.pairs name)
  else .error .invalidHeaderName

/-- values.join(', ') of headers.js. -/
def joinComma (vs : List String) : String :=
  String.intercalate ", " vs

/-- The non-throwing part of Headers.prototype.get: look up the
lower-cased name, join the values with comma-space, and lower-case the
result when the requested name matches /^content-encoding$/i (for an
ASCII name that regex test is equality of the lower-cased name with
the literal). -/
def Headers.lookupJoined (h : Headers) (name : String) : Option String :=
  match mapGet h.pairs (lowerStr name) with
  | none => none
  | some values =>
    let value := joinComma values
    some (if lowerStr name = "content-encoding" then lowerStr value else value)

/-- Headers.prototype.get: validate the name (throw), then return null
or the joined value. -/
def Headers.get (h : Headers) (name : String) : Except HeaderError (Option String) :=
  if checkName name then .ok (h.lookupJoined name)
  else .error .invalidHeaderName

/-- Headers.prototype.getSetCookie: raw access to the values stored
under the literal lower-case key, defaulting to the empty array. -/
def Headers.getSetCookie (h : Headers) : List String :=
  (mapGet h.pairs "set-cookie").getD []

/-- The entry-accumulation loop of Headers.prototype.entries, iterating
over the keys of the store in insertion order: a set-cookie key emits
one pair per raw stored value (through getSetCookie), every other key
emits one pair with the joined value of get.  The name validation
performed by the inner this.get call is omitted here: every stored key
of a Headers object has passed validation, so that call cannot throw
(returning null is kept, as the source keeps the value != null test). -/
def entriesAux (h : Headers) : Store → List (String × String)
  | [] => []
  | p :: rest =>
    (if lowerStr p.1 = "set-cookie" then
      h.getSetCookie.map (fun cookie => (p.1, cookie))
    else
      match h.lookupJoined p.1 with
      | none => []
      | some value => [(p.1, value)]) ++ entriesAux h rest

/-- The unsorted entry list of Headers.prototype.entries. -/
def Headers.entriesRaw (h : Headers) : List (String × String) :=
  entriesAux h h.pairs

/-- One step of the stable sort underlying Array.prototype.sort with
the comparator (a, b) => cmp(a[0], b[0]): insert a pair in front of the
first element whose name is not below it. -/
def orderedInsertName (le : String → String → Bool) (a : String × String) :
    List (String × String) → List (String × String)
  | [] => [a]
  | b :: l => if le a.1 b.1 then a :: b :: l else b :: orderedInsertName le a l

/-- Array.prototype.sort of headers.js with the name comparator, as a
stable insertion sort (the ECMAScript sort is required to be stable and
to agree with the comparator, so any stable model is faithful). -/
def sortByName (le : String → String → Bool) :
    List (String × String) → List (String × String)
  | [] => []
  | b :: l => orderedInsertName le b (sortByName le l)

/-- Headers.prototype.entries: the accumulated pairs, sorted by name
with entries.sort((a, b) => a[0].localeCompare(b[0])).  The order that
localeCompare implements comes from the host's locale data (ECMA-402
leaves it implementation- and locale-dependent), so it is not part of
the source being modelled; the sort is therefore parameterized by the
name comparator le, about which ECMA-402 guarantees exactly that a
collator is a consistent comparator — total and transitive. -/
def Headers.entryListBy (h : Headers) (le : String → String → Bool) :
    List (String × String) :=
  sortByName le h.entriesRaw

/-- Code-point comparison of character lists: true when the first list
is lexicographically at most the second. -/
def charListLE : List Char → List Char → Bool
  | [], _ => true
  | _ :: _, [] => false
  | a :: as, b :: bs =>
    if a.toNat < b.toNat then true
    else if b.toNat < a.toNat then false
    else charListLE as bs

/-- A concrete consistent comparator (code-point order on the names),
used only to instantiate the comparator-generic theorems on concrete
inputs; it is not claimed to be the host's localeCompare order. -/
def codePointLE (a b : String) : Bool :=
  charListLE a.data b.data

/-- A sequence of append calls (the looped body of the constructor for
the record, pair-sequence and Headers initializer shapes).  Each step
keeps the state returned by appendRun; on valid input no step throws. -/
def appendMany (h : Headers) : List (String × String) → Headers
  | [] => h
  | p :: rest => appendMany (h.appendRun p.1 p.2).2 rest

/-- The pair-sequence constructor loop: for each materialized pair,
throw the tuple TypeError unless it has exactly two members, then
append it (propagating validator throws). -/
def Headers.buildPairs (h : Headers) : List (List String) → Except HeaderError Headers
  | [] => .ok h
  | [n, v] :: rest =>
    match h.appendRun n v with
    | (some e, _) => .error e
    | (none, h2) => h2.buildPairs rest
  | _ :: _ => .error .invalidPair

/-- new Headers(listOfPairs). -/
def Headers.ofPairs (l : List (List String)) : Except HeaderError Headers :=
  Headers.buildPairs Headers.empty l

/-- The pair-grouping reduce of fromRawHeaders: at each even index take
the two-element slice (the final slice of an odd-length list has one
element). -/
def chunkPairs : List String → List (List String)
  | [] => []
  | [a] => [[a]]
  | a :: b :: rest => [a, b] :: chunkPairs rest

/-- The filter predicate of fromRawHeaders.  Destructuring a one-element
slice leaves the value undefined, and String(undefined) is the string
"undefined", which passes the value validator; an empty slice would
likewise stringify both members to "undefined" (such a slice is never
produced). -/
def keepPair : List String → Bool
  | [] => checkName "undefined" && checkValue "undefined"
  | [n] => checkName n && checkValue "undefined"
  | n :: v :: _ => checkName n && checkValue v

/-- fromRawHeaders of headers.js: group the flat list into slices of
two, drop the slices that fail validation, and hand the survivors to
the Headers constructor. -/
def fromRawHeaders (headers : List String) : Except HeaderError Headers :=
  Headers.ofPairs ((chunkPairs headers).filter keepPair)

/-- A two-element slice as a (name, value) pair. -/
def chunkToPair : List String → Option (String × String)
  | [n, v] => some (n, v)
  | _ => none

/-- The surviving (name, value) pairs of a fromRawHeaders call, for
even-length input (every slice then has exactly two elements). -/
def rawSurvivors (l : List String) : List (String × String) :=
  ((chunkPairs l).filter keepPair).filterMap chunkToPair

/-- The data-model invariant stated in the specification: every key of
the backing store is lower-case and a valid token, and maps to a
non-empty list of valid values. -/
def HInv (h : Headers) : Prop :=
  ∀ p ∈ h.pairs, lowerStr p.1 = p.1 ∧ checkName p.1 = true ∧
    p.2 ≠ [] ∧ ∀ v ∈ p.2, checkValue v = true

instance HInv.decidable (h : Headers) : Decidable (HInv h) := by
  unfold HInv
  infer_instance

/-- A well-formed store: the invariant together with uniqueness of the
keys (a JS Map cannot hold a key twice). -/
def WF (h : Headers) : Prop :=
  HInv h ∧ (h.pairs.map Prod.fst).Nodup

instance WF.decidable (h : Headers) : Decidable (WF h) := by
  unfold WF
  infer_instance

/-- The states reachable through the public mutating surface: the empty
construction together with append, set and delete steps.  All
constructor initializer shapes and fromRawHeaders only iterate append
from the empty state, so their results are reachable. -/
inductive Reachable : Headers → Prop where
  | empty : Reachable Headers.empty
  | append (h : Headers) (n v : String) : Reachable h → Reachable (h.appendRun n v).2
  | set (h : Headers) (n v : String) : Reachable h → Reachable (h.setRun n v).2
  | del (h : Headers) (n : String) : Reachable h → Reachable (h.deleteRun n).2

/-- Modelled from the spec (section 4.2 of the design document), for
comparison with the validator of the source: a header-name character
of the claimed HTTP token alphabet, listed as written there:
A-Z a-z 0-9 and the characters of the class
[A-Za-z0-9!#$%&'*+.^_`|~-] with code points
33 35 36 37 38 39 42 43 46 94 95 96 124 126 45. -/
def specTokenProp (n : Nat) : Prop :=
  (65 ≤ n ∧ n ≤ 90) ∨ (97 ≤ n ∧ n ≤ 122) ∨ (48 ≤ n ∧ n ≤ 57) ∨
  n = 33 ∨ n = 35 ∨ n = 36 ∨ n = 37 ∨ n = 38 ∨ n = 39 ∨ n = 42 ∨
  n = 43 ∨ n = 46 ∨ n = 94 ∨ n = 95 ∨ n = 96 ∨ n = 124 ∨ n = 126 ∨ n = 45

instance specTokenProp.decidable : DecidablePred specTokenProp := by
  intro n
  unfold specTokenProp
  infer_instance

/-- Modelled from the spec: a valid header name is a non-empty string
over the claimed token alphabet. -/
def specHeaderName (s : String) : Bool :=
  !s.data.isEmpty && s.data.all (fun c => decide (specTokenProp c.toNat))

/-- Modelled from the spec: a valid header value contains only tab,
0x20-0x7E and 0x80-0xFF. -/
def specHeaderValue (s : String) : Bool :=
  s.data.all (fun c => decide (valueProp c.toNat))

/-- Modelled from the spec (section 4.5): the multiset of pairs that
entries() must enumerate, in store order before sorting: one pair per
raw stored set-cookie value, and for every other name one pair with
the joined value that get returns (including the content-encoding
lower-casing of get). -/
def specEntriesExpansion : Store → List (String × String)
  | [] => []
  | p :: rest =>
    (if p.1 = "set-cookie" then
      p.2.map (fun v => (p.1, v))
    else
      [(p.1, if p.1 = "content-encoding" then lowerStr (joinComma p.2) else joinComma p.2)]) ++
    specEntriesExpansion rest

/-! ## Helper lemmas -/


theorem lowerChar_eq_of_upper (c : Char) (h : upperProp c.toNat) :
    lowerChar c = Char.ofNat (c.toNat + 32) := by
  simp [lowerChar, h]

theorem lowerChar_eq_of_not_upper (c : Char) (h : ¬ upperProp c.toNat) :
    lowerChar c = c := by
  unfold lowerChar
  rw [if_neg h]

theorem lowerChar_idem (c : Char) : lowerChar (lowerChar c) = lowerChar c := by
  by_cases h : upperProp c.toNat
  · rw [lowerChar_eq_of_upper c h]
    unfold upperProp at h
    generalize hg : c.toNat = n at h
    rcases h with h | h | h
    · obtain ⟨h1, h2⟩ := h
      interval_cases n <;> decide
    · obtain ⟨h1, h2⟩ := h
      interval_cases n <;> decide
    · obtain ⟨h1, h2⟩ := h
      interval_cases n <;> decide
  · simp [lowerChar_eq_of_not_upper c h]

theorem isTokenChar_lowerChar (c : Char) (h : isTokenChar c = true) :
    isTokenChar (lowerChar c) = true := by
  by_cases hu : upperProp c.toNat
  · rw [lowerChar_eq_of_upper c hu]
    have ht : tokenProp c.toNat := of_decide_eq_true h
    unfold tokenProp at ht
    unfold upperProp at hu
    have hb : 65 ≤ c.toNat ∧ c.toNat ≤ 90 := by omega
    generalize hg : c.toNat = n at hb
    obtain ⟨h1, h2⟩ := hb
    interval_cases n <;> decide
  · rw [lowerChar_eq_of_not_upper c hu]
    exact h

theorem lowerStr_idem (s : String) : lowerStr (lowerStr s) = lowerStr s := by
  unfold lowerStr
  congr 1
  show (s.data.map lowerChar).map lowerChar = s.data.map lowerChar
  rw [List.map_map]
  exact List.map_congr_left (fun a _ => lowerChar_idem a)

theorem checkName_lowerStr (s : String) (h : checkName s = true) :
    checkName (lowerStr s) = true := by
  unfold checkName at h ⊢
  rw [Bool.and_eq_true] at h ⊢
  obtain ⟨h1, h2⟩ := h
  constructor
  · show (!(s.data.map lowerChar).isEmpty) = true
    cases hd : s.data with
    | nil =>
      rw [hd] at h1
      simp at h1
    | cons a l => simp
  · show (s.data.map lowerChar).all isTokenChar = true
    rw [List.all_map]
    rw [List.all_eq_true] at h2 ⊢
    intro a ha
    exact isTokenChar_lowerChar a (h2 a ha)

theorem mapGet_set_self (m : Store) (k : String) (vs : List String) :
    mapGet (mapSet m k vs) k = some vs := by
  induction m with
  | nil => simp [mapSet, mapGet]
  | cons p rest ih =>
    by_cases h : p.1 = k
    · simp [mapSet, h, mapGet]
    · simp [mapSet, h, mapGet, ih]

theorem mapGet_mem (m : Store) (k : String) (vs : List String) (h : mapGet m k = some vs) :
    (k, vs) ∈ m := by
  induction m with
  | nil => simp [mapGet] at h
  | cons p rest ih =>
    rw [mapGet] at h
    by_cases hp : p.1 = k
    · rw [if_pos hp] at h
      injection h with h
      have hpe : p = (k, vs) := by
        cases p
        simp_all
      rw [← hpe]
      exact List.mem_cons_self p rest
    · rw [if_neg hp] at h
      exact List.mem_cons_of_mem _ (ih h)

theorem mem_mapSet (m : Store) (k : String) (vs : List String) (p : String × List String)
    (h : p ∈ mapSet m k vs) : p = (k, vs) ∨ p ∈ m := by
  induction m with
  | nil =>
    rw [mapSet] at h
    left
    simpa using h
  | cons q rest ih =>
    rw [mapSet] at h
    by_cases hq : q.1 = k
    · rw [if_pos hq] at h
      rcases List.mem_cons.mp h with h | h
      · left; exact h
      · right; exact List.mem_cons_of_mem _ h
    · rw [if_neg hq] at h
      rcases List.mem_cons.mp h with h | h
      · right
        rw [h]
        exact List.mem_cons_self q rest
      · rcases ih h with h | h
        · left; exact h
        · right; exact List.mem_cons_of_mem _ h

theorem mem_mapDelete (m : Store) (k : String) (p : String × List String)
    (h : p ∈ mapDelete m k) : p ∈ m := by
  induction m with
  | nil =>
    rw [mapDelete] at h
    exact absurd h (List.not_mem_nil p)
  | cons q rest ih =>
    rw [mapDelete] at h
    by_cases hq : q.1 = k
    · rw [if_pos hq] at h
      exact List.mem_cons_of_mem _ h
    · rw [if_neg hq] at h
      rcases List.mem_cons.mp h with h | h
      · rw [h]
        exact List.mem_cons_self q rest
      · exact List.mem_cons_of_mem _ (ih h)

theorem mapGet_of_mem_nodup (m : Store) (hnd : (m.map Prod.fst).Nodup)
    (p : String × List String) (hp : p ∈ m) : mapGet m p.1 = some p.2 := by
  induction m with
  | nil => simp at hp
  | cons q rest ih =>
    rw [List.map_cons, List.nodup_cons] at hnd
    obtain ⟨hq, hrest⟩ := hnd
    rcases List.mem_cons.mp hp with h | h
    · rw [h, mapGet, if_pos rfl]
    · have hne : q.1 ≠ p.1 := by
        intro he
        exact hq (he ▸ List.mem_map_of_mem Prod.fst h)
      rw [mapGet, if_neg hne]
      exact ih hrest h

theorem HInv_mapSet (h : Headers) (hinv : HInv h) (k : String) (vs : List String)
    (hk1 : lowerStr k = k) (hk2 : checkName k = true) (hne : vs ≠ [])
    (hvs : ∀ v ∈ vs, checkValue v = true) : HInv ⟨mapSet h.pairs k vs⟩ := by
  intro p hp
  rcases mem_mapSet h.pairs k vs p hp with hc | hc
  · rw [hc]
    exact ⟨hk1, hk2, hne, hvs⟩
  · exact hinv p hc

theorem HInv_append (h : Headers) (hinv : HInv h) (n v : String) :
    HInv (h.appendRun n v).2 := by
  by_cases hn : checkName n = true
  · by_cases hv : checkValue v = true
    · simp only [Headers.appendRun, if_pos hn, if_pos hv]
      cases hg : mapGet h.pairs (lowerStr n) with
      | some values =>
        simp only [hg]
        apply HInv_mapSet h hinv (lowerStr n) (values ++ [v]) (lowerStr_idem n)
          (checkName_lowerStr n hn)
        · simp
        · intro x hx
          rcases List.mem_append.mp hx with hx | hx
          · exact ((hinv _ (mapGet_mem h.pairs (lowerStr n) values hg)).2.2.2) x hx
          · rw [List.mem_singleton.mp hx]
            exact hv
      | none =>
        simp only [hg]
        apply HInv_mapSet h hinv (lowerStr n) [v] (lowerStr_idem n) (checkName_lowerStr n hn)
        · simp
        · intro x hx
          rw [List.mem_singleton.mp hx]
          exact hv
    · simp only [Headers.appendRun, if_pos hn, if_neg hv]
      exact hinv
  · simp only [Headers.appendRun, if_neg hn]
    exact hinv

theorem HInv_set (h : Headers) (hinv : HInv h) (n v : String) :
    HInv (h.setRun n v).2 := by
  by_cases hn : checkName n = true
  · by_cases hv : checkValue v = true
    · simp only [Headers.setRun, if_pos hn, if_pos hv]
      apply HInv_mapSet h hinv (lowerStr n) [v] (lowerStr_idem n) (checkName_lowerStr n hn)
      · simp
      · intro x hx
        rw [List.mem_singleton.mp hx]
        exact hv
    · simp only [Headers.setRun, if_pos hn, if_neg hv]
      exact hinv
  · simp only [Headers.setRun, if_neg hn]
    exact hinv

theorem HInv_delete (h : Headers) (hinv : HInv h) (n : String) :
    HInv (h.deleteRun n).2 := by
  by_cases hn : checkName n = true
  · simp only [Headers.deleteRun, if_pos hn]
    intro p hp
    exact hinv p (mem_mapDelete h.pairs n p hp)
  · simp only [Headers.deleteRun, if_neg hn]
    exact hinv

theorem appendRun_valid (h : Headers) (n v : String) (hn : checkName n = true)
    (hv : checkValue v = true) :
    h.appendRun n v =
      (none, ⟨mapSet h.pairs (lowerStr n) (((mapGet h.pairs (lowerStr n)).getD []) ++ [v])⟩) := by
  simp only [Headers.appendRun, if_pos hn, if_pos hv]
  cases hg : mapGet h.pairs (lowerStr n) <;> simp [hg]

theorem appendMany_key (K : String) :
    ∀ (ps : List (String × String)) (h : Headers) (vs : List String),
      (∀ p ∈ ps, checkName p.1 = true ∧ checkValue p.2 = true ∧ lowerStr p.1 = K) →
      mapGet h.pairs K = some vs →
      mapGet (appendMany h ps).pairs K = some (vs ++ ps.map Prod.snd)
  | [], h, vs, _, hg => by simpa [appendMany] using hg
  | p :: rest, h, vs, hps, hg => by
    obtain ⟨hn, hv, hk⟩ := hps p (List.mem_cons_self p rest)
    rw [appendMany, appendRun_valid h p.1 p.2 hn hv, hk, hg]
    have hrec := appendMany_key K rest ⟨mapSet h.pairs K ((some vs).getD [] ++ [p.2])⟩
      ((some vs).getD [] ++ [p.2])
      (fun q hq => hps q (List.mem_cons_of_mem p hq))
      (mapGet_set_self h.pairs K ((some vs).getD [] ++ [p.2]))
    rw [hrec]
    simp

theorem appendMany_key_absent (K : String) (ps : List (String × String)) (h : Headers)
    (hps : ∀ p ∈ ps, checkName p.1 = true ∧ checkValue p.2 = true ∧ lowerStr p.1 = K)
    (habs : mapGet h.pairs K = none) (hne : ps ≠ []) :
    mapGet (appendMany h ps).pairs K = some (ps.map Prod.snd) := by
  cases ps with
  | nil => exact absurd rfl hne
  | cons p rest =>
    obtain ⟨hn, hv, hk⟩ := hps p (List.mem_cons_self p rest)
    rw [appendMany, appendRun_valid h p.1 p.2 hn hv, hk, habs]
    have hrec := appendMany_key K rest ⟨mapSet h.pairs K ((none : Option (List String)).getD [] ++ [p.2])⟩
      ((none : Option (List String)).getD [] ++ [p.2])
      (fun q hq => hps q (List.mem_cons_of_mem p hq))
      (mapGet_set_self h.pairs K ((none : Option (List String)).getD [] ++ [p.2]))
    rw [hrec]
    simp

theorem get_valid (h : Headers) (n : String) (hn : checkName n = true) :
    h.get n = .ok (h.lookupJoined n) := by
  simp [Headers.get, hn]

theorem joinComma_single (v : String) : joinComma [v] = v := by
  simp [joinComma, String.intercalate, String.intercalate.go]

theorem isTokenChar_eq_spec (c : Char) : isTokenChar c = decide (specTokenProp c.toNat) := by
  unfold isTokenChar
  refine decide_eq_decide.mpr ?_
  unfold tokenProp specTokenProp
  omega

theorem checkName_eq_spec (s : String) : checkName s = specHeaderName s := by
  unfold checkName specHeaderName
  rw [funext isTokenChar_eq_spec]

theorem checkValue_eq_spec (s : String) : checkValue s = specHeaderValue s := rfl

theorem buildPairs_valid : ∀ (cs : List (List String)) (h : Headers),
    (∀ c ∈ cs, ∃ a b, c = [a, b] ∧ checkName a = true ∧ checkValue b = true) →
    Headers.buildPairs h cs = .ok (appendMany h (cs.filterMap chunkToPair))
  | [], h, _ => by simp [Headers.buildPairs, appendMany]
  | c :: rest, h, hcs => by
    obtain ⟨a, b, hc, ha, hb⟩ := hcs c (List.mem_cons_self c rest)
    subst hc
    have happ := appendRun_valid h a b ha hb
    simp only [Headers.buildPairs, happ]
    rw [buildPairs_valid rest _ (fun c hc => hcs c (List.mem_cons_of_mem _ hc))]
    simp only [List.filterMap_cons, chunkToPair, appendMany, happ]

theorem chunkPairs_even : ∀ (l : List String), l.length % 2 = 0 →
    ∀ c ∈ chunkPairs l, ∃ a b, c = [a, b]
  | [], _ => by simp [chunkPairs]
  | [a], h => by simp at h
  | a :: b :: rest, h => by
    intro c hc
    rw [chunkPairs] at hc
    rcases List.mem_cons.mp hc with hc | hc
    · exact ⟨a, b, hc⟩
    · have hre : rest.length % 2 = 0 := by
        simp only [List.length_cons] at h
        omega
      exact chunkPairs_even rest hre c hc

theorem buildPairs_odd : ∀ (l : List String) (h : Headers) (x : String),
    l.length % 2 = 1 → l.getLast? = some x → checkName x = true →
    Headers.buildPairs h ((chunkPairs l).filter keepPair) = .error HeaderError.invalidPair
  | [], _, x, hodd, _, _ => absurd hodd (by decide)
  | [a], h, x, hodd, hlast, hx => by
    have hxa : a = x := by
      simpa [List.getLast?] using hlast
    rw [chunkPairs]
    have hk : keepPair [a] = true := by
      rw [keepPair, Bool.and_eq_true]
      exact ⟨hxa ▸ hx, by decide⟩
    simp [List.filter, hk, Headers.buildPairs]
  | a :: b :: rest, h, x, hodd, hlast, hx => by
    have hro : rest.length % 2 = 1 := by
      simp only [List.length_cons] at hodd
      omega
    have hrne : rest ≠ [] := by
      intro he
      rw [he] at hro
      exact absurd hro (by decide)
    have hlast2 : rest.getLast? = some x := by
      rw [List.getLast?_cons_cons] at hlast
      cases rest with
      | nil => exact absurd rfl hrne
      | cons r rs =>
        rw [List.getLast?_cons_cons] at hlast
        exact hlast
    rw [chunkPairs]
    by_cases hk : keepPair [a, b] = true
    · rw [List.filter_cons_of_pos hk]
      have hck : checkName a = true ∧ checkValue b = true := by
        rw [keepPair, Bool.and_eq_true] at hk
        exact hk
      have happ := appendRun_valid h a b hck.1 hck.2
      simp only [Headers.buildPairs, happ]
      exact buildPairs_odd rest _ x hro hlast2 hx
    · rw [List.filter_cons_of_neg (by simpa using hk)]
      exact buildPairs_odd rest h x hro hlast2 hx

theorem entriesAux_eq_spec (h : Headers) : ∀ (l : Store),
    (∀ p ∈ l, mapGet h.pairs p.1 = some p.2 ∧ lowerStr p.1 = p.1) →
    entriesAux h l = specEntriesExpansion l
  | [], _ => rfl
  | p :: rest, hl => by
    obtain ⟨hg, hlow⟩ := hl p (List.mem_cons_self p rest)
    rw [entriesAux, specEntriesExpansion]
    rw [entriesAux_eq_spec h rest (fun q hq => hl q (List.mem_cons_of_mem _ hq))]
    congr 1
    unfold Headers.getSetCookie Headers.lookupJoined
    rw [hlow]
    by_cases hsc : p.1 = "set-cookie"
    · rw [if_pos hsc, if_pos hsc, ← hsc, hg]
      simp
    · rw [if_neg hsc, if_neg hsc, hg]

theorem mem_specExpansion_fst : ∀ (m : Store) (e : String × String),
    e ∈ specEntriesExpansion m → ∃ p, p ∈ m ∧ e.1 = p.1
  | [], e, he => by simp [specEntriesExpansion] at he
  | p :: rest, e, he => by
    rw [specEntriesExpansion] at he
    rcases List.mem_append.mp he with he | he
    · by_cases hsc : p.1 = "set-cookie"
      · rw [if_pos hsc] at he
        obtain ⟨v, _, hev⟩ := List.mem_map.mp he
        refine ⟨p, List.mem_cons_self p rest, ?_⟩
        rw [← hev]
      · rw [if_neg hsc] at he
        rw [List.mem_singleton] at he
        refine ⟨p, List.mem_cons_self p rest, ?_⟩
        rw [he]
    · obtain ⟨q, hq, heq⟩ := mem_specExpansion_fst rest e he
      exact ⟨q, List.mem_cons_of_mem _ hq, heq⟩



theorem charListLE_total : ∀ (x y : List Char), charListLE x y = true ∨ charListLE y x = true
  | [], _ => Or.inl rfl
  | _ :: _, [] => Or.inr rfl
  | x :: xs, y :: ys => by
    rw [charListLE, charListLE]
    by_cases h1 : x.toNat < y.toNat
    · left
      simp [h1]
    · by_cases h2 : y.toNat < x.toNat
      · right
        simp [h2]
      · simp only [if_neg h1, if_neg h2]
        exact charListLE_total xs ys

theorem charListLE_trans : ∀ (x y z : List Char), charListLE x y = true →
    charListLE y z = true → charListLE x z = true
  | [], _, _, _, _ => rfl
  | _ :: _, [], _, h1, _ => by simp [charListLE] at h1
  | _ :: _, _ :: _, [], _, h2 => by simp [charListLE] at h2
  | x :: xs, y :: ys, z :: zs, h1, h2 => by
    rw [charListLE] at h1 h2 ⊢
    by_cases hxy : x.toNat < y.toNat
    · by_cases hyz : y.toNat < z.toNat
      · simp [show x.toNat < z.toNat from by omega]
      · by_cases hzy : z.toNat < y.toNat
        · rw [if_neg hyz, if_pos hzy] at h2
          simp at h2
        · simp [show x.toNat < z.toNat from by omega]
    · by_cases hyx : y.toNat < x.toNat
      · rw [if_neg hxy, if_pos hyx] at h1
        simp at h1
      · rw [if_neg hxy, if_neg hyx] at h1
        by_cases hyz : y.toNat < z.toNat
        · simp [show x.toNat < z.toNat from by omega]
        · by_cases hzy : z.toNat < y.toNat
          · rw [if_neg hyz, if_pos hzy] at h2
            simp at h2
          · rw [if_neg hyz, if_neg hzy] at h2
            rw [if_neg (show ¬ x.toNat < z.toNat from by omega),
              if_neg (show ¬ z.toNat < x.toNat from by omega)]
            exact charListLE_trans xs ys zs h1 h2

theorem perm_orderedInsertName (le : String → String → Bool) (a : String × String) :
    ∀ (l : List (String × String)), List.Perm (orderedInsertName le a l) (a :: l)
  | [] => List.Perm.refl _
  | b :: l => by
    rw [orderedInsertName]
    by_cases hc : le a.1 b.1 = true
    · rw [if_pos hc]
    · rw [if_neg hc]
      exact (List.Perm.cons b (perm_orderedInsertName le a l)).trans (List.Perm.swap a b l)

theorem perm_sortByName (le : String → String → Bool) :
    ∀ (l : List (String × String)), List.Perm (sortByName le l) l
  | [] => List.Perm.refl _
  | b :: l =>
    (perm_orderedInsertName le b (sortByName le l)).trans
      (List.Perm.cons b (perm_sortByName le l))

theorem sorted_orderedInsertName (le : String → String → Bool)
    (htot : ∀ x y, le x y = true ∨ le y x = true)
    (htrans : ∀ x y z, le x y = true → le y z = true → le x z = true)
    (a : String × String) :
    ∀ (l : List (String × String)),
      List.Sorted (fun x y : String × String => le x.1 y.1 = true) l →
      List.Sorted (fun x y : String × String => le x.1 y.1 = true) (orderedInsertName le a l)
  | [], _ => by simp [orderedInsertName]
  | b :: l, hs => by
    rw [orderedInsertName]
    rw [List.sorted_cons] at hs
    obtain ⟨hb, hl⟩ := hs
    by_cases hc : le a.1 b.1 = true
    · rw [if_pos hc, List.sorted_cons]
      refine ⟨?_, List.sorted_cons.mpr ⟨hb, hl⟩⟩
      intro x hx
      rcases List.mem_cons.mp hx with hx | hx
      · rw [hx]
        exact hc
      · exact htrans a.1 b.1 x.1 hc (hb x hx)
    · rw [if_neg hc, List.sorted_cons]
      have hba : le b.1 a.1 = true := (htot a.1 b.1).resolve_left hc
      refine ⟨?_, sorted_orderedInsertName le htot htrans a l hl⟩
      intro x hx
      have hx2 : x = a ∨ x ∈ l :=
        List.mem_cons.mp ((perm_orderedInsertName le a l).mem_iff.mp hx)
      rcases hx2 with hx2 | hx2
      · rw [hx2]
        exact hba
      · exact hb x hx2

theorem sorted_sortByName (le : String → String → Bool)
    (htot : ∀ x y, le x y = true ∨ le y x = true)
    (htrans : ∀ x y z, le x y = true → le y z = true → le x z = true) :
    ∀ (l : List (String × String)),
      List.Sorted (fun x y : String × String => le x.1 y.1 = true) (sortByName le l)
  | [] => List.sorted_nil
  | b :: l =>
    sorted_orderedInsertName le htot htrans b (sortByName le l)
      (sorted_sortByName le htot htrans l)

theorem codePointLE_total (x y : String) :
    codePointLE x y = true ∨ codePointLE y x = true :=
  charListLE_total x.data y.data

theorem codePointLE_trans (x y z : String) (h1 : codePointLE x y = true)
    (h2 : codePointLE y z = true) : codePointLE x z = true :=
  charListLE_trans x.data y.data z.data h1 h2



/-! ## Claim theorems -/

/-- C1: the claim states that after append(n, v), has(m) is true for
every valid m whose lower-casing equals that of n.  The code stores the
key "a" for append("A", "1") but has("A") looks up the literal "A"
without lower-casing, so it returns false while has("a") returns true:
the lookup of has is not case-insensitive, contradicting the claim (and
the case-insensitivity stated by the documentation comment of the
class). -/
theorem has_not_case_insensitive :
    (Headers.empty.appendRun "A" "1").2.hasRun "A" = .ok false ∧
    (Headers.empty.appendRun "A" "1").2.hasRun "a" = .ok true := by
  decide

/-- C2: the claim states that delete(n) removes the entry stored under
the lower-cased form of n.  After append("A", "1") the store holds the
key "a", but delete("A") removes the literal key "A" without
lower-casing: the call is a no-op, the state is unchanged and has("a")
is still true afterwards, contradicting the claim (and the
case-insensitivity stated by the documentation comment of the class). -/
theorem delete_not_case_insensitive :
    ((Headers.empty.appendRun "A" "1").2.deleteRun "A").2 = (Headers.empty.appendRun "A" "1").2 ∧
    ((Headers.empty.appendRun "A" "1").2.deleteRun "A").2.hasRun "a" = .ok true := by
  decide

/-- C3 counterexample: the claim says that after appending the single
valid value "GZIP" under the valid name "Content-Encoding", get returns
that value; the code returns "gzip" instead, because get lower-cases
the joined value for the name content-encoding. -/
theorem append_get_join_cex :
    (Headers.empty.appendRun "Content-Encoding" "GZIP").2.get "Content-Encoding" ≠
      .ok (some "GZIP") ∧
    (Headers.empty.appendRun "Content-Encoding" "GZIP").2.get "Content-Encoding" =
      .ok (some "gzip") := by
  decide

/-- C3 (amended): appending valid values v1..vk under case variants of
a valid name n absent from the list leaves get(n) equal to the values
joined with comma-space in append order (v1 itself when k = 1, since
the join of a one-element list is that element), additionally
lower-cased when n lower-cases to content-encoding; and when n
lower-cases to set-cookie, getSetCookie returns the raw values
unmodified in append order. -/
theorem append_get_join (n : String) (ps : List (String × String)) (h : Headers)
    (hn : checkName n = true)
    (hps : ∀ p ∈ ps, checkName p.1 = true ∧ checkValue p.2 = true ∧ lowerStr p.1 = lowerStr n)
    (hne : ps ≠ [])
    (habs : mapGet h.pairs (lowerStr n) = none) :
    (appendMany h ps).get n =
      .ok (some (if lowerStr n = "content-encoding"
        then lowerStr (joinComma (ps.map Prod.snd))
        else joinComma (ps.map Prod.snd))) ∧
    (lowerStr n = "set-cookie" → (appendMany h ps).getSetCookie = ps.map Prod.snd) := by
  have hkey := appendMany_key_absent (lowerStr n) ps h hps habs hne
  constructor
  · rw [get_valid _ n hn]
    unfold Headers.lookupJoined
    rw [hkey]
  · intro hsk
    unfold Headers.getSetCookie
    rw [hsk] at hkey
    rw [hkey]
    rfl

/-- C3 witness: the amended theorem applied to two set-cookie appends
on an empty list. -/
theorem append_get_join_witness :
    checkName "Set-Cookie" = true ∧
    (∀ p ∈ [("Set-Cookie", "a=1"), ("set-cookie", "b=2")],
      checkName p.1 = true ∧ checkValue p.2 = true ∧ lowerStr p.1 = lowerStr "Set-Cookie") ∧
    [("Set-Cookie", "a=1"), ("set-cookie", "b=2")] ≠ ([] : List (String × String)) ∧
    mapGet Headers.empty.pairs (lowerStr "Set-Cookie") = none ∧
    ((appendMany Headers.empty [("Set-Cookie", "a=1"), ("set-cookie", "b=2")]).get "Set-Cookie" =
      .ok (some (if lowerStr "Set-Cookie" = "content-encoding"
        then lowerStr (joinComma ([("Set-Cookie", "a=1"), ("set-cookie", "b=2")].map Prod.snd))
        else joinComma ([("Set-Cookie", "a=1"), ("set-cookie", "b=2")].map Prod.snd))) ∧
      (lowerStr "Set-Cookie" = "set-cookie" →
        (appendMany Headers.empty [("Set-Cookie", "a=1"), ("set-cookie", "b=2")]).getSetCookie =
          [("Set-Cookie", "a=1"), ("set-cookie", "b=2")].map Prod.snd)) :=
  ⟨by decide, by decide, by decide, by decide,
    append_get_join "Set-Cookie" [("Set-Cookie", "a=1"), ("set-cookie", "b=2")] Headers.empty
      (by decide) (by decide) (by decide) (by decide)⟩


/-- C7 counterexample: the claim says set(n, v1) then set(n, v2)
leaves get(n) equal to v2 for every valid name and values; for
n = "Content-Encoding" and v2 = "GZIP" the code returns "gzip",
because get lower-cases the joined value for this one name. -/
theorem set_set_get_cex :
    ((Headers.empty.setRun "Content-Encoding" "deflate").2.setRun
      "Content-Encoding" "GZIP").2.get "Content-Encoding" ≠ .ok (some "GZIP") ∧
    ((Headers.empty.setRun "Content-Encoding" "deflate").2.setRun
      "Content-Encoding" "GZIP").2.get "Content-Encoding" = .ok (some "gzip") := by
  decide

/-- C7 (amended): for valid name and values, set(n, v1) then set(n, v2)
replaces the whole value sequence of the lower-cased name with the
single value v2 (no accumulation), and get(n) then returns v2 — except
that for a name lower-casing to content-encoding the returned value is
v2 lower-cased. -/
theorem set_set_get (h : Headers) (n v1 v2 : String) (hn : checkName n = true)
    (hv1 : checkValue v1 = true) (hv2 : checkValue v2 = true) :
    mapGet ((h.setRun n v1).2.setRun n v2).2.pairs (lowerStr n) = some [v2] ∧
    ((h.setRun n v1).2.setRun n v2).2.get n =
      .ok (some (if lowerStr n = "content-encoding" then lowerStr v2 else v2)) := by
  have h1 : (h.setRun n v1).2 = ⟨mapSet h.pairs (lowerStr n) [v1]⟩ := by
    simp [Headers.setRun, hn, hv1]
  have h2 : ((h.setRun n v1).2.setRun n v2).2 =
      ⟨mapSet (mapSet h.pairs (lowerStr n) [v1]) (lowerStr n) [v2]⟩ := by
    rw [h1]
    simp [Headers.setRun, hn, hv2]
  rw [h2]
  have hget := mapGet_set_self (mapSet h.pairs (lowerStr n) [v1]) (lowerStr n) [v2]
  refine ⟨hget, ?_⟩
  rw [get_valid _ n hn]
  unfold Headers.lookupJoined
  rw [hget]
  simp [joinComma_single]

/-- C7 witness: the amended theorem at a concrete name and values. -/
theorem set_set_get_witness :
    checkName "X-A" = true ∧ checkValue "1" = true ∧ checkValue "2" = true ∧
    (mapGet ((Headers.empty.setRun "X-A" "1").2.setRun "X-A" "2").2.pairs (lowerStr "X-A") =
      some ["2"] ∧
    ((Headers.empty.setRun "X-A" "1").2.setRun "X-A" "2").2.get "X-A" =
      .ok (some (if lowerStr "X-A" = "content-encoding" then lowerStr "2" else "2"))) :=
  ⟨by decide, by decide, by decide,
    set_set_get Headers.empty "X-A" "1" "2" (by decide) (by decide) (by decide)⟩

/-- C8: for a valid name that lower-cases to content-encoding, get
returns the comma-joined stored value additionally lower-cased; for
every other valid name, get returns the stored values joined with
comma-space, casing preserved. -/
theorem get_content_encoding (h : Headers) (n : String) (hn : checkName n = true) :
    (lowerStr n = "content-encoding" →
      h.get n = .ok ((mapGet h.pairs "content-encoding").map (fun vs => lowerStr (joinComma vs)))) ∧
    (lowerStr n ≠ "content-encoding" →
      h.get n = .ok ((mapGet h.pairs (lowerStr n)).map joinComma)) := by
  constructor
  · intro hce
    rw [get_valid h n hn]
    unfold Headers.lookupJoined
    rw [hce]
    cases mapGet h.pairs "content-encoding" <;> simp
  · intro hce
    rw [get_valid h n hn]
    unfold Headers.lookupJoined
    cases mapGet h.pairs (lowerStr n) <;> simp [hce]

/-- C8 witness: the theorem applied to the case-variant name
"Content-Encoding" on a list storing the value "GZIP". -/
theorem get_content_encoding_witness :
    checkName "Content-Encoding" = true ∧
    ((lowerStr "Content-Encoding" = "content-encoding" →
      (Headers.mk [("content-encoding", ["GZIP"])]).get "Content-Encoding" =
        .ok ((mapGet (Headers.mk [("content-encoding", ["GZIP"])]).pairs
          "content-encoding").map (fun vs => lowerStr (joinComma vs)))) ∧
    (lowerStr "Content-Encoding" ≠ "content-encoding" →
      (Headers.mk [("content-encoding", ["GZIP"])]).get "Content-Encoding" =
        .ok ((mapGet (Headers.mk [("content-encoding", ["GZIP"])]).pairs
          (lowerStr "Content-Encoding")).map joinComma))) :=
  ⟨by decide, get_content_encoding (Headers.mk [("content-encoding", ["GZIP"])])
    "Content-Encoding" (by decide)⟩

/-- C5 counterexample: the claim says append raises InvalidHeaderValue
exactly when the value contains a disallowed character; for the call
append("bad name", "\x01bad") the value does contain a disallowed
character, yet the raised error is InvalidHeaderName, because the name
is validated first. -/
theorem validation_errors_cex :
    ¬ (((Headers.empty.appendRun "bad name" "\x01bad").1 =
        some HeaderError.invalidHeaderValue) ↔ specHeaderValue "\x01bad" = false) ∧
    (Headers.empty.appendRun "bad name" "\x01bad").1 = some HeaderError.invalidHeaderName := by
  decide

/-- C5 (amended): append (likewise set) raises InvalidHeaderName
exactly when the name is not a non-empty string over the claimed HTTP
token alphabet, raises InvalidHeaderValue exactly when the name is
valid and the value contains a character outside tab, 0x20-0x7E and
0x80-0xFF, and on either failure the list is left completely
unmodified. -/
theorem validation_errors (h : Headers) (n v : String) :
    ((h.appendRun n v).1 = some HeaderError.invalidHeaderName ↔ specHeaderName n = false) ∧
    ((h.setRun n v).1 = some HeaderError.invalidHeaderName ↔ specHeaderName n = false) ∧
    ((h.appendRun n v).1 = some HeaderError.invalidHeaderValue ↔
      (specHeaderName n = true ∧ specHeaderValue v = false)) ∧
    ((h.setRun n v).1 = some HeaderError.invalidHeaderValue ↔
      (specHeaderName n = true ∧ specHeaderValue v = false)) ∧
    ((h.appendRun n v).1 ≠ none → (h.appendRun n v).2 = h) ∧
    ((h.setRun n v).1 ≠ none → (h.setRun n v).2 = h) := by
  rw [← checkName_eq_spec, ← checkValue_eq_spec]
  by_cases hn : checkName n = true
  · by_cases hv : checkValue v = true
    · have ha : (h.appendRun n v).1 = none := by
        rw [appendRun_valid h n v hn hv]
      have hs : (h.setRun n v).1 = none := by
        simp [Headers.setRun, hn, hv]
      rw [ha, hs]
      simp [hn, hv]
    · have hv2 : checkValue v = false := by
        simpa using hv
      have ha : h.appendRun n v = (some HeaderError.invalidHeaderValue, h) := by
        simp [Headers.appendRun, hn, hv2]
      have hs : h.setRun n v = (some HeaderError.invalidHeaderValue, h) := by
        simp [Headers.setRun, hn, hv2]
      rw [ha, hs]
      simp [hn, hv2]
  · have hn2 : checkName n = false := by
      simpa using hn
    have ha : h.appendRun n v = (some HeaderError.invalidHeaderName, h) := by
      simp [Headers.appendRun, hn2]
    have hs : h.setRun n v = (some HeaderError.invalidHeaderName, h) := by
      simp [Headers.setRun, hn2]
    rw [ha, hs]
    simp [hn2]

/-- C5 witness: the amended theorem at a concrete call. -/
theorem validation_errors_witness :
    ((Headers.empty.appendRun "bad name" "x").1 = some HeaderError.invalidHeaderName ↔
      specHeaderName "bad name" = false) ∧
    ((Headers.empty.setRun "bad name" "x").1 = some HeaderError.invalidHeaderName ↔
      specHeaderName "bad name" = false) ∧
    ((Headers.empty.appendRun "bad name" "x").1 = some HeaderError.invalidHeaderValue ↔
      (specHeaderName "bad name" = true ∧ specHeaderValue "x" = false)) ∧
    ((Headers.empty.setRun "bad name" "x").1 = some HeaderError.invalidHeaderValue ↔
      (specHeaderName "bad name" = true ∧ specHeaderValue "x" = false)) ∧
    ((Headers.empty.appendRun "bad name" "x").1 ≠ none →
      (Headers.empty.appendRun "bad name" "x").2 = Headers.empty) ∧
    ((Headers.empty.setRun "bad name" "x").1 ≠ none →
      (Headers.empty.setRun "bad name" "x").2 = Headers.empty) :=
  validation_errors Headers.empty "bad name" "x"

/-- C6: on a flat alternating list of even length, fromRawHeaders never
raises: every slice has exactly two elements, each slice failing name
or value validation is silently dropped, and the result is the Headers
value built by appending exactly the surviving pairs in order. -/
theorem fromRaw_even (l : List String) (he : l.length % 2 = 0) :
    fromRawHeaders l = .ok (appendMany Headers.empty (rawSurvivors l)) := by
  unfold fromRawHeaders Headers.ofPairs rawSurvivors
  apply buildPairs_valid
  intro c hc
  rw [List.mem_filter] at hc
  obtain ⟨hmem, hkeep⟩ := hc
  obtain ⟨a, b, hab⟩ := chunkPairs_even l he c hmem
  subst hab
  rw [keepPair, Bool.and_eq_true] at hkeep
  exact ⟨a, b, rfl, hkeep.1, hkeep.2⟩

/-- C6 witness: the theorem at the specification example, where the
malformed middle pair is dropped. -/
theorem fromRaw_even_witness :
    (["X-Good", "1", "bad name", "2", "X-Ok", "3"] : List String).length % 2 = 0 ∧
    fromRawHeaders ["X-Good", "1", "bad name", "2", "X-Ok", "3"] =
      .ok (appendMany Headers.empty (rawSurvivors ["X-Good", "1", "bad name", "2", "X-Ok", "3"])) ∧
    appendMany Headers.empty (rawSurvivors ["X-Good", "1", "bad name", "2", "X-Ok", "3"]) =
      Headers.mk [("x-good", ["1"]), ("x-ok", ["3"])] :=
  ⟨by decide, fromRaw_even ["X-Good", "1", "bad name", "2", "X-Ok", "3"] (by decide), by decide⟩

/-- C10: on a flat list of odd length whose dangling last element is a
valid header name, the lone element survives the validation filter (its
missing value stringifies to "undefined", which passes value
validation) and the constructor rejects the one-element pair with the
tuple TypeError, so fromRawHeaders raises. -/
theorem fromRaw_odd (l : List String) (x : String) (hodd : l.length % 2 = 1)
    (hlast : l.getLast? = some x) (hx : checkName x = true) :
    fromRawHeaders l = .error HeaderError.invalidPair := by
  unfold fromRawHeaders Headers.ofPairs
  exact buildPairs_odd l Headers.empty x hodd hlast hx

/-- C10 witness: the theorem at a concrete odd-length raw list. -/
theorem fromRaw_odd_witness :
    (["X-Good", "1", "X-Dangling"] : List String).length % 2 = 1 ∧
    (["X-Good", "1", "X-Dangling"] : List String).getLast? = some "X-Dangling" ∧
    checkName "X-Dangling" = true ∧
    fromRawHeaders ["X-Good", "1", "X-Dangling"] = .error HeaderError.invalidPair :=
  ⟨by decide, by decide, by decide,
    fromRaw_odd ["X-Good", "1", "X-Dangling"] "X-Dangling" (by decide) (by decide) (by decide)⟩

/-- C9: every Headers state reachable through the public operations
(construction starts empty; append, set and delete are the mutators,
and every constructor initializer shape only iterates append) satisfies
the data-model invariant: all keys are lower-case valid tokens, all
stored values are valid, and no key maps to an empty value sequence. -/
theorem reachable_HInv (h : Headers) (hr : Reachable h) : HInv h := by
  induction hr with
  | empty =>
    intro p hp
    simp [Headers.empty] at hp
  | append h0 n v _ ih => exact HInv_append h0 ih n v
  | set h0 n v _ ih => exact HInv_set h0 ih n v
  | del h0 n _ ih => exact HInv_delete h0 ih n

/-- C9 witness: the invariant of a state reached by one append. -/
theorem reachable_HInv_witness :
    Reachable (Headers.empty.appendRun "A" "1").2 ∧ HInv (Headers.empty.appendRun "A" "1").2 :=
  ⟨Reachable.append Headers.empty "A" "1" Reachable.empty,
    reachable_HInv (Headers.empty.appendRun "A" "1").2
      (Reachable.append Headers.empty "A" "1" Reachable.empty)⟩


/-- C4: for every well-formed Headers state and every name comparator
that satisfies the consistency guarantees ECMA-402 gives localeCompare
(totality and transitivity), entries() is sorted by name under that
comparator, is a permutation of the specified expansion — one pair per
raw stored set-cookie value and one pair per other name carrying the
joined value of get — and every emitted name is lower-case; and,
provided the comparator orders "a" before "b" (as every locale does),
constructing from another Headers value holding the entries a ↦ 1 and
b ↦ 2 (obtained from the record initializer with keys "A" and "b") and
iterating yields [("a", "1"), ("b", "2")]. -/
theorem entries_spec (h : Headers) (le : String → String → Bool) (hwf : WF h)
    (htot : ∀ x y, le x y = true ∨ le y x = true)
    (htrans : ∀ x y z, le x y = true → le y z = true → le x z = true) :
    List.Sorted (fun a b : String × String => le a.1 b.1 = true) (h.entryListBy le) ∧
    List.Perm (h.entryListBy le) (specEntriesExpansion h.pairs) ∧
    (∀ e ∈ h.entryListBy le, lowerStr e.1 = e.1) ∧
    (le "a" "b" = true →
      (appendMany Headers.empty
        ((appendMany Headers.empty [("A", "1"), ("b", "2")]).entryListBy le)).entryListBy le
      = [("a", "1"), ("b", "2")]) := by
  obtain ⟨hinv, hnd⟩ := hwf
  have hcond : ∀ p ∈ h.pairs, mapGet h.pairs p.1 = some p.2 ∧ lowerStr p.1 = p.1 :=
    fun p hp => ⟨mapGet_of_mem_nodup h.pairs hnd p hp, (hinv p hp).1⟩
  have heq : h.entriesRaw = specEntriesExpansion h.pairs := entriesAux_eq_spec h h.pairs hcond
  have hperm : List.Perm (h.entryListBy le) h.entriesRaw := perm_sortByName le h.entriesRaw
  refine ⟨sorted_sortByName le htot htrans h.entriesRaw, ?_, ?_, ?_⟩
  · rw [← heq]
    exact hperm
  · intro e he
    have hraw : e ∈ h.entriesRaw := hperm.mem_iff.mp he
    rw [heq] at hraw
    obtain ⟨p, hp, hefst⟩ := mem_specExpansion_fst h.pairs e hraw
    rw [hefst]
    exact (hinv p hp).1
  · intro hab
    have h1 : appendMany Headers.empty [("A", "1"), ("b", "2")] =
        Headers.mk [("a", ["1"]), ("b", ["2"])] := by decide
    have h2 : (Headers.mk [("a", ["1"]), ("b", ["2"])]).entriesRaw =
        [("a", "1"), ("b", "2")] := by decide
    have h3 : (Headers.mk [("a", ["1"]), ("b", ["2"])]).entryListBy le =
        [("a", "1"), ("b", "2")] := by
      rw [Headers.entryListBy, h2]
      simp [sortByName, orderedInsertName, hab]
    have h4 : appendMany Headers.empty [("a", "1"), ("b", "2")] =
        Headers.mk [("a", ["1"]), ("b", ["2"])] := by decide
    rw [h1, h3, h4, h3]

/-- C4 witness: the theorem applied to a concrete well-formed state
holding two plain names and two set-cookie values, with the sample
code-point comparator (a consistent comparator) for the locale order. -/
theorem entries_spec_witness :
    WF (Headers.mk [("b", ["2"]), ("set-cookie", ["x=1", "y=2"]), ("a", ["1"])]) ∧
    (∀ x y, codePointLE x y = true ∨ codePointLE y x = true) ∧
    (∀ x y z, codePointLE x y = true → codePointLE y z = true → codePointLE x z = true) ∧
    (List.Sorted (fun a b : String × String => codePointLE a.1 b.1 = true)
      ((Headers.mk [("b", ["2"]), ("set-cookie", ["x=1", "y=2"]), ("a", ["1"])]).entryListBy
        codePointLE) ∧
    List.Perm
      ((Headers.mk [("b", ["2"]), ("set-cookie", ["x=1", "y=2"]), ("a", ["1"])]).entryListBy
        codePointLE)
      (specEntriesExpansion
        (Headers.mk [("b", ["2"]), ("set-cookie", ["x=1", "y=2"]), ("a", ["1"])]).pairs) ∧
    (∀ e ∈ (Headers.mk [("b", ["2"]), ("set-cookie", ["x=1", "y=2"]), ("a", ["1"])]).entryListBy
        codePointLE, lowerStr e.1 = e.1) ∧
    (codePointLE "a" "b" = true →
      (appendMany Headers.empty
        ((appendMany Headers.empty [("A", "1"), ("b", "2")]).entryListBy
          codePointLE)).entryListBy codePointLE
      = [("a", "1"), ("b", "2")])) :=
  ⟨by decide, codePointLE_total, codePointLE_trans,
    entries_spec (Headers.mk [("b", ["2"]), ("set-cookie", ["x=1", "y=2"]), ("a", ["1"])])
      codePointLE (by decide) codePointLE_total codePointLE_trans⟩

end WebFetch
